import Mathlib

/-!
Shallow embedding of `src/Task_2/gas_storage_pricing.py` (class `GasStoragePricer`).

Conventions of the embedding:
* Calendar dates are integer day ordinals (`Int`); `(b - a)` is the whole-day
  count `(b - a).days` of the Python code (all datetimes in the source are
  midnight-aligned, so `.days` is exact integer subtraction of ordinals).
* Prices, volumes, rates and cash flows are rationals (`ℚ`), standing for the
  exact real arithmetic the floating-point program approximates.
* Python's stable sorts (`list.sort`, `sorted`) are modelled by
  `List.insertionSort`, which is stable; a stable sort's output is uniquely
  determined by the ordering key, so this is faithful to Timsort.
* Fallible operations (pandas `.iloc` on an empty frame) are modelled with
  `Option`: `none` wherever the Python program would raise.
-/

namespace GasStorage

/-- One observation of the price series: `(date, price)` (a row of the
`price_data` DataFrame). -/
structure PricePoint where
  date : Int
  price : ℚ
deriving DecidableEq, Repr

abbrev PriceSeries := List PricePoint

/-- The dates of a series are strictly ascending (the constructor sorts by
date, and the data model has unique dates). -/
abbrev SortedSeries (s : PriceSeries) : Prop :=
  s.Pairwise (fun p q => p.date < q.date)

/-- The pricer object: the (sorted) price series plus the shared
`storage_cost_per_unit_per_day` field. -/
structure GasStoragePricer where
  price_data : PriceSeries
  storage_cost_per_unit_per_day : ℚ
deriving DecidableEq, Repr

/-- `GasStoragePricer.__init__`: copy the data, sort it by date, store the
cost rate. -/
def GasStoragePricer.make (price_data : PriceSeries)
    (storage_cost_per_unit_per_day : ℚ) : GasStoragePricer :=
  ⟨price_data.insertionSort (fun a b => a.date ≤ b.date),
   storage_cost_per_unit_per_day⟩

/-- `GasStoragePricer.interpolate_price` (source lines 32-59).
`min?`/`max?` model the pandas column `min()`/`max()`; the two filters model
the boolean-mask row selections, with `getLast?`/`head?` for `iloc[-1]` /
`iloc[0]`.  On an empty series every step is `none` (pandas raises). -/
def interpolate_price (s : PriceSeries) (d : Int) : Option ℚ :=
  ((s.map (·.date)).min?).bind fun dmin =>
  ((s.map (·.date)).max?).bind fun dmax =>
  s.head?.bind fun first =>
  s.getLast?.bind fun last =>
  if d ≤ dmin then some first.price
  else if dmax ≤ d then some last.price
  else
    ((s.filter (fun p => decide (p.date ≤ d))).getLast?).bind fun before =>
    ((s.filter (fun p => decide (d < p.date))).head?).bind fun after =>
    let days_total : Int := after.date - before.date
    let days_from_before : Int := d - before.date
    if days_total = 0 then some before.price
    else
      let weight : ℚ := (days_from_before : ℚ) / (days_total : ℚ)
      some (before.price * (1 - weight) + after.price * weight)

def GasStoragePricer.interpolate_price (self : GasStoragePricer) (d : Int) :
    Option ℚ :=
  GasStorage.interpolate_price self.price_data d

/-- The loop body of `calculate_storage_costs` (source lines 71-79): walk
consecutive pairs; each pair contributes
`(current_inventory * rate) * days`. -/
def storageCostsFrom (rate : ℚ) : List (Int × ℚ) → ℚ
  | (d1, inv1) :: (d2, inv2) :: rest =>
      inv1 * rate * ((d2 - d1 : Int) : ℚ) + storageCostsFrom rate ((d2, inv2) :: rest)
  | _ => 0

/-- `GasStoragePricer.calculate_storage_costs` (source lines 61-81). -/
def GasStoragePricer.calculate_storage_costs (self : GasStoragePricer)
    (inventory_schedule : List (Int × ℚ)) : ℚ :=
  storageCostsFrom self.storage_cost_per_unit_per_day inventory_schedule

/-- Tag of an operation: the strings `'inject'`, `'withdraw'`, `'liquidate'`. -/
inductive OpKind
  | inject
  | withdraw
  | liquidate
deriving DecidableEq, Repr

/-- A proposal tuple `(date, operation, volume, price)` appended to
`all_operations`. -/
structure Proposal where
  date : Int
  kind : OpKind
  volume : ℚ
  price : ℚ
deriving DecidableEq, Repr

/-- A record appended to `strategy` during the execution pass. -/
structure Operation where
  date : Int
  operation : OpKind
  volume : ℚ
  price : ℚ
  cash_flow : ℚ
  inventory_after : ℚ
deriving DecidableEq, Repr

/-- Injection proposal pass (source lines 128-135).  `current_inventory` is
the variable initialised to `0.0` at line 122; the source never assigns to it
inside this loop, which the recursion mirrors by threading it unchanged. -/
def injectionPass (rate cap : ℚ) (withdrawal_prices : List (Int × ℚ)) :
    List (Int × ℚ) → ℚ → List Proposal
  | [], _ => []
  | (inj_date, inj_price) :: rest, current_inventory =>
      let profitable_withdrawals :=
        withdrawal_prices.filter (fun w => decide (inj_price < w.2) && decide (inj_date < w.1))
      if profitable_withdrawals ≠ [] ∧ current_inventory < cap then
        let volume_to_inject := min rate (cap - current_inventory)
        if 0 < volume_to_inject then
          ⟨inj_date, OpKind.inject, volume_to_inject, inj_price⟩ ::
            injectionPass rate cap withdrawal_prices rest current_inventory
        else
          injectionPass rate cap withdrawal_prices rest current_inventory
      else
        injectionPass rate cap withdrawal_prices rest current_inventory

/-- Withdrawal proposal pass (source lines 137-146): folds over the
(descending-price) withdrawal list, appending to `all_operations`. -/
def withdrawalPass (rate : ℚ) : List (Int × ℚ) → List Proposal → List Proposal
  | [], all_operations => all_operations
  | (with_date, with_price) :: rest, all_operations =>
      let prior_injections :=
        all_operations.filter
          (fun op => decide (op.date < with_date) && decide (op.kind = OpKind.inject))
      if prior_injections ≠ [] then
        let available_volume := (prior_injections.map (·.volume)).sum
        if 0 < available_volume then
          withdrawalPass rate rest
            (all_operations ++
              [⟨with_date, OpKind.withdraw, min rate available_volume, with_price⟩])
        else withdrawalPass rate rest all_operations
      else withdrawalPass rate rest all_operations

/-- Mutable state of the execution pass (source lines 152-181). -/
structure ExecState where
  strategy : List Operation
  inventory_schedule : List (Int × ℚ)
  current_inventory : ℚ
  total_cash_flow : ℚ
deriving DecidableEq, Repr

/-- Execution pass (source lines 155-181): replay date-sorted proposals
against the authoritative inventory counter; after every proposal (applied or
skipped) append `(date, current_inventory)` to the schedule. -/
def executeOps (cap : ℚ) : List Proposal → ExecState → ExecState
  | [], st => st
  | p :: rest, st =>
      let st' :=
        match p.kind with
        | OpKind.inject =>
            if st.current_inventory + p.volume ≤ cap then
              { st with
                current_inventory := st.current_inventory + p.volume,
                total_cash_flow := st.total_cash_flow - p.volume * p.price,
                strategy := st.strategy ++
                  [Operation.mk p.date OpKind.inject p.volume p.price (-(p.volume * p.price))
                    (st.current_inventory + p.volume)] }
            else st
        | OpKind.withdraw =>
            if p.volume ≤ st.current_inventory then
              { st with
                current_inventory := st.current_inventory - p.volume,
                total_cash_flow := st.total_cash_flow + p.volume * p.price,
                strategy := st.strategy ++
                  [Operation.mk p.date OpKind.withdraw p.volume p.price (p.volume * p.price)
                    (st.current_inventory - p.volume)] }
            else st
        | OpKind.liquidate => st
      executeOps cap rest
        { st' with inventory_schedule :=
            st'.inventory_schedule ++ [(p.date, st'.current_inventory)] }

/-- The dictionary returned by `optimize_storage_strategy`. -/
structure ValuationResult where
  strategy : List Operation
  inventory_schedule : List (Int × ℚ)
  total_cash_flow : ℚ
  storage_costs : ℚ
  contract_value : ℚ
  price_map : List (Int × ℚ)
deriving DecidableEq, Repr

/-- Resolve a list of dates against the series: the `price_map` dictionary
comprehension / the `(date, price_map[date])` list builds; `none` iff some
interpolation fails (empty series). -/
def resolvePrices (s : PriceSeries) : List Int → Option (List (Int × ℚ))
  | [] => some []
  | d :: rest =>
      (interpolate_price s d).bind fun pr =>
        (resolvePrices s rest).map fun tail => (d, pr) :: tail

/-- `GasStoragePricer.optimize_storage_strategy` (source lines 83-211).
`all_dates = sorted(set(...))` is `dedup` + ascending sort; the two price
lists are stably sorted ascending / descending by price; the final merge is a
stable sort by date.  The end-of-contract price used by forced liquidation is
resolved up front: it succeeds exactly when the `price_map` resolution does
(both fail only on an empty series). -/
def GasStoragePricer.optimize_storage_strategy (self : GasStoragePricer)
    (injection_dates withdrawal_dates : List Int)
    (injection_withdrawal_rate max_storage_volume : ℚ)
    (contract_start contract_end : Int) : Option ValuationResult :=
  let all_dates :=
    ((injection_dates ++ withdrawal_dates ++ [contract_start, contract_end]).dedup).insertionSort
      (fun a b => a ≤ b)
  match resolvePrices self.price_data all_dates,
        resolvePrices self.price_data injection_dates,
        resolvePrices self.price_data withdrawal_dates,
        GasStorage.interpolate_price self.price_data contract_end with
  | some price_map, some injection_prices0, some withdrawal_prices0, some end_price =>
      let injection_prices := injection_prices0.insertionSort (fun a b => a.2 ≤ b.2)
      let withdrawal_prices := withdrawal_prices0.insertionSort (fun a b => b.2 ≤ a.2)
      let ops_after_inject :=
        injectionPass injection_withdrawal_rate max_storage_volume
          withdrawal_prices injection_prices 0
      let all_operations :=
        withdrawalPass injection_withdrawal_rate withdrawal_prices ops_after_inject
      let sorted_operations := all_operations.insertionSort (fun a b => a.date ≤ b.date)
      let st := executeOps max_storage_volume sorted_operations
        ⟨[], [(contract_start, 0)], 0, 0⟩
      let liquidated :=
        if 0 < st.current_inventory then
          (st.strategy ++
             [⟨contract_end, OpKind.liquidate, st.current_inventory, end_price,
               st.current_inventory * end_price, 0⟩],
           st.total_cash_flow + st.current_inventory * end_price)
        else (st.strategy, st.total_cash_flow)
      let inventory_schedule := st.inventory_schedule ++ [(contract_end, 0)]
      let storage_costs := self.calculate_storage_costs inventory_schedule
      some ⟨liquidated.1, inventory_schedule, liquidated.2, storage_costs,
            liquidated.2 - storage_costs, price_map⟩
  | _, _, _, _ => none

/-- `GasStoragePricer.price_contract` (source lines 213-262).  The Python
method mutates `self.storage_cost_per_unit_per_day` when an override is
given; the embedding returns the post-call pricer state alongside the result.
Date-string parsing is the caller's concern and is out of the embedding
(dates arrive parsed). -/
def GasStoragePricer.price_contract (self : GasStoragePricer)
    (injection_dates withdrawal_dates : List Int)
    (injection_withdrawal_rate max_storage_volume : ℚ)
    (contract_start contract_end : Int)
    (storage_cost_per_unit_per_day : Option ℚ) :
    GasStoragePricer × Option ValuationResult :=
  let self' :=
    match storage_cost_per_unit_per_day with
    | some c => { self with storage_cost_per_unit_per_day := c }
    | none => self
  (self',
   self'.optimize_storage_strategy injection_dates withdrawal_dates
     injection_withdrawal_rate max_storage_volume contract_start contract_end)

/-! Helper lemmas about sorted series and the two row selections of
`interpolate_price`. -/

instance : Std.Antisymm ((· : Int) ≤ ·) := ⟨fun h1 h2 => le_antisymm h1 h2⟩

lemma int_min?_eq_some_iff {l : List Int} {a : Int} :
    l.min? = some a ↔ a ∈ l ∧ ∀ b ∈ l, a ≤ b :=
  List.min?_eq_some_iff (fun x => le_refl x) (fun x y => min_choice x y)
    (fun _ _ _ => le_min_iff)

lemma int_max?_eq_some_iff {l : List Int} {a : Int} :
    l.max? = some a ↔ a ∈ l ∧ ∀ b ∈ l, b ≤ a :=
  List.max?_eq_some_iff (fun x => le_refl x) (fun x y => max_choice x y)
    (fun _ _ _ => max_le_iff)

lemma head_date_le (s : PriceSeries) (p0 : PricePoint) (hs : SortedSeries s)
    (h0 : s.head? = some p0) : ∀ p ∈ s, p0.date ≤ p.date := by
  cases s with
  | nil => simp at h0
  | cons q t =>
    obtain rfl : q = p0 := by simpa using h0
    intro p hp
    rcases List.mem_cons.mp hp with rfl | hp
    · exact le_refl _
    · exact le_of_lt ((List.pairwise_cons.mp hs).1 p hp)

lemma getLast_date_ge (s : PriceSeries) (pn : PricePoint) (hs : SortedSeries s)
    (hn : s.getLast? = some pn) : ∀ p ∈ s, p.date ≤ pn.date := by
  induction s with
  | nil => simp at hn
  | cons q t ih =>
    cases t with
    | nil =>
      obtain rfl : q = pn := by simpa using hn
      intro p hp
      rcases List.mem_cons.mp hp with rfl | hp
      · exact le_refl _
      · simp at hp
    | cons r t' =>
      rw [List.getLast?_cons_cons] at hn
      have htail := ih (List.pairwise_cons.mp hs).2 hn
      have hpn_mem : pn ∈ r :: t' := List.mem_of_getLast?_eq_some hn
      intro p hp
      rcases List.mem_cons.mp hp with rfl | hp
      · exact le_of_lt ((List.pairwise_cons.mp hs).1 pn hpn_mem)
      · exact htail p hp

lemma date_inj (s : PriceSeries) (hs : SortedSeries s) :
    ∀ a ∈ s, ∀ b ∈ s, a.date = b.date → a = b := by
  induction s with
  | nil => intro a ha; simp at ha
  | cons q t ih =>
    intro a ha b hb hd
    have hq := (List.pairwise_cons.mp hs).1
    have ht := (List.pairwise_cons.mp hs).2
    rcases List.mem_cons.mp ha with h1 | h1
    · rcases List.mem_cons.mp hb with h2 | h2
      · rw [h1, h2]
      · exact absurd hd (by rw [h1]; exact ne_of_lt (hq b h2))
    · rcases List.mem_cons.mp hb with h2 | h2
      · exact absurd hd (by rw [h2]; exact (ne_of_lt (hq a h1)).symm)
      · exact ih ht a h1 b h2 hd

lemma dates_min?_eq (s : PriceSeries) (p0 : PricePoint) (hs : SortedSeries s)
    (h0 : s.head? = some p0) : (s.map (·.date)).min? = some p0.date := by
  refine int_min?_eq_some_iff.mpr ⟨?_, ?_⟩
  · exact List.mem_map_of_mem _ (List.mem_of_mem_head? (by simp [h0]))
  · intro b hb
    obtain ⟨p, hp, rfl⟩ := List.mem_map.mp hb
    exact head_date_le s p0 hs h0 p hp

lemma dates_max?_eq (s : PriceSeries) (pn : PricePoint) (hs : SortedSeries s)
    (hn : s.getLast? = some pn) : (s.map (·.date)).max? = some pn.date := by
  refine int_max?_eq_some_iff.mpr ⟨?_, ?_⟩
  · exact List.mem_map_of_mem _ (List.mem_of_getLast?_eq_some hn)
  · intro b hb
    obtain ⟨p, hp, rfl⟩ := List.mem_map.mp hb
    exact getLast_date_ge s pn hs hn p hp

lemma sortedSeries_filter (s : PriceSeries) (hs : SortedSeries s)
    (p : PricePoint → Bool) : SortedSeries (s.filter p) :=
  List.Pairwise.sublist (List.filter_sublist s) hs

lemma filterLE_getLast_spec (s : PriceSeries) (d : Int) (hs : SortedSeries s)
    (x : PricePoint) (hx : x ∈ s) (hxd : x.date ≤ d) :
    ∃ b, (s.filter (fun p => decide (p.date ≤ d))).getLast? = some b ∧
      b ∈ s ∧ b.date ≤ d ∧ ∀ p ∈ s, p.date ≤ d → p.date ≤ b.date := by
  have hxF : x ∈ s.filter (fun p => decide (p.date ≤ d)) :=
    List.mem_filter.mpr ⟨hx, by simpa using hxd⟩
  cases hF : (s.filter (fun p => decide (p.date ≤ d))).getLast? with
  | none =>
    rw [List.getLast?_eq_none_iff] at hF
    rw [hF] at hxF
    simp at hxF
  | some b =>
    have hbF : b ∈ s.filter (fun p => decide (p.date ≤ d)) :=
      List.mem_of_getLast?_eq_some hF
    obtain ⟨hbs, hbd⟩ := List.mem_filter.mp hbF
    refine ⟨b, rfl, hbs, by simpa using hbd, ?_⟩
    intro p hp hpd
    exact getLast_date_ge _ b (sortedSeries_filter s hs _) hF p
      (List.mem_filter.mpr ⟨hp, by simpa using hpd⟩)

lemma filterGT_head_spec (s : PriceSeries) (d : Int) (hs : SortedSeries s)
    (y : PricePoint) (hy : y ∈ s) (hyd : d < y.date) :
    ∃ a, (s.filter (fun p => decide (d < p.date))).head? = some a ∧
      a ∈ s ∧ d < a.date ∧ ∀ p ∈ s, d < p.date → a.date ≤ p.date := by
  have hyF : y ∈ s.filter (fun p => decide (d < p.date)) :=
    List.mem_filter.mpr ⟨hy, by simpa using hyd⟩
  cases hF : (s.filter (fun p => decide (d < p.date))).head? with
  | none =>
    rw [List.head?_eq_none_iff] at hF
    rw [hF] at hyF
    simp at hyF
  | some a =>
    have haF : a ∈ s.filter (fun p => decide (d < p.date)) :=
      List.mem_of_mem_head? (by simp [hF])
    obtain ⟨has, had⟩ := List.mem_filter.mp haF
    refine ⟨a, rfl, has, by simpa using had, ?_⟩
    intro p hp hpd
    exact head_date_le _ a (sortedSeries_filter s hs _) hF p
      (List.mem_filter.mpr ⟨hp, by simpa using hpd⟩)

lemma interpolate_price_before_start (s : PriceSeries) (d : Int) (hs : SortedSeries s)
    (p0 : PricePoint) (h0 : s.head? = some p0) (hd : d ≤ p0.date) :
    interpolate_price s d = some p0.price := by
  cases hL : s.getLast? with
  | none =>
    rw [List.getLast?_eq_none_iff] at hL
    rw [hL] at h0
    simp at h0
  | some pn =>
    unfold interpolate_price
    rw [dates_min?_eq s p0 hs h0, dates_max?_eq s pn hs hL, h0, hL]
    simp only [Option.some_bind]
    rw [if_pos hd]

lemma interpolate_price_after_end (s : PriceSeries) (d : Int) (hs : SortedSeries s)
    (pn : PricePoint) (hn : s.getLast? = some pn) (hd : pn.date ≤ d) :
    interpolate_price s d = some pn.price := by
  cases hH : s.head? with
  | none =>
    rw [List.head?_eq_none_iff] at hH
    rw [hH] at hn
    simp at hn
  | some p0 =>
    by_cases hlow : d ≤ p0.date
    · have h1 : p0.date ≤ pn.date :=
        getLast_date_ge s pn hs hn p0 (List.mem_of_mem_head? (by simp [hH]))
      have h2 : p0.date = pn.date := le_antisymm h1 (le_trans hd hlow)
      have h3 : p0 = pn :=
        date_inj s hs p0 (List.mem_of_mem_head? (by simp [hH])) pn
          (List.mem_of_getLast?_eq_some hn) h2
      rw [interpolate_price_before_start s d hs p0 hH hlow, h3]
    · unfold interpolate_price
      rw [dates_min?_eq s p0 hs hH, dates_max?_eq s pn hs hn, hH, hn]
      simp only [Option.some_bind]
      rw [if_neg hlow, if_pos hd]

lemma interpolate_price_interior (s : PriceSeries) (d : Int) (hs : SortedSeries s)
    (p0 pn : PricePoint) (h0 : s.head? = some p0) (hn : s.getLast? = some pn)
    (hlo : p0.date < d) (hhi : d < pn.date) (b a : PricePoint)
    (hbL : (s.filter (fun p => decide (p.date ≤ d))).getLast? = some b)
    (haH : (s.filter (fun p => decide (d < p.date))).head? = some a)
    (hbd : b.date ≤ d) (had : d < a.date) :
    interpolate_price s d =
      some (b.price * (1 - ((d - b.date : Int) : ℚ) / ((a.date - b.date : Int) : ℚ))
        + a.price * (((d - b.date : Int) : ℚ) / ((a.date - b.date : Int) : ℚ))) := by
  unfold interpolate_price
  rw [dates_min?_eq s p0 hs h0, dates_max?_eq s pn hs hn, h0, hn]
  simp only [Option.some_bind]
  rw [if_neg (not_le.mpr hlo), if_neg (not_le.mpr hhi), hbL, haH]
  simp only [Option.some_bind]
  rw [if_neg (by omega : ¬(a.date - b.date = 0))]

/-- C8: for every query date at or before the earliest observed date,
`interpolate_price` returns exactly the earliest observed price, and for
every query date at or after the latest observed date it returns exactly the
latest observed price (flat extrapolation outside the observed range).  For a
date-sorted series the earliest/latest observations are the first/last
entries. -/
theorem C8_flat_extrapolation (s : PriceSeries) (hs : SortedSeries s)
    (p0 pn : PricePoint) (h0 : s.head? = some p0) (hn : s.getLast? = some pn)
    (d : Int) :
    (d ≤ p0.date → interpolate_price s d = some p0.price) ∧
    (pn.date ≤ d → interpolate_price s d = some pn.price) :=
  ⟨fun hd => interpolate_price_before_start s d hs p0 h0 hd,
   fun hd => interpolate_price_after_end s d hs pn hn hd⟩

/-- Witness for C8 on the spec's two-point series: queries 5 days before the
first observation and 10 days after the last return the boundary prices. -/
theorem C8_flat_extrapolation_witness :
    interpolate_price [⟨0, 10⟩, ⟨10, 20⟩] (-5) = some 10 ∧
    interpolate_price [⟨0, 10⟩, ⟨10, 20⟩] 20 = some 20 :=
  ⟨(C8_flat_extrapolation [⟨0, 10⟩, ⟨10, 20⟩] (by decide) ⟨0, 10⟩ ⟨10, 20⟩ rfl rfl
      (-5)).1 (by decide),
   (C8_flat_extrapolation [⟨0, 10⟩, ⟨10, 20⟩] (by decide) ⟨0, 10⟩ ⟨10, 20⟩ rfl rfl
      20).2 (by decide)⟩

/-- C5: for every query date strictly between the earliest and latest
observed dates, `interpolate_price` returns
`before.price * (1 - weight) + after.price * weight` where `before` is the
nearest observed point with date ≤ the query date, `after` the nearest
observed point with date > it, and
`weight = days(before, query) / days(before, after)` with integer day
counts. -/
theorem C5_interior_formula (s : PriceSeries) (hs : SortedSeries s)
    (p0 pn : PricePoint) (h0 : s.head? = some p0) (hn : s.getLast? = some pn)
    (d : Int) (hlo : p0.date < d) (hhi : d < pn.date)
    (before after : PricePoint) (hbmem : before ∈ s) (hamem : after ∈ s)
    (hble : before.date ≤ d) (halt : d < after.date)
    (hbmax : ∀ p ∈ s, p.date ≤ d → p.date ≤ before.date)
    (hamin : ∀ p ∈ s, d < p.date → after.date ≤ p.date) :
    interpolate_price s d =
      some (before.price *
          (1 - ((d - before.date : Int) : ℚ) / ((after.date - before.date : Int) : ℚ))
        + after.price *
          (((d - before.date : Int) : ℚ) / ((after.date - before.date : Int) : ℚ))) := by
  obtain ⟨b, hbL, hbs, hbd, hbmax'⟩ := filterLE_getLast_spec s d hs before hbmem hble
  obtain ⟨a, haH, has, had, hamin'⟩ := filterGT_head_spec s d hs after hamem halt
  have hb : b = before :=
    date_inj s hs b hbs before hbmem
      (le_antisymm (hbmax b hbs hbd) (hbmax' before hbmem hble))
  have ha : a = after :=
    date_inj s hs a has after hamem
      (le_antisymm (hamin' after hamem halt) (hamin a has had))
  rw [hb] at hbL hbd
  rw [ha] at haH had
  exact interpolate_price_interior s d hs p0 pn h0 hn hlo hhi before after
    hbL haH hbd had

/-- Witness for C5, which is also the spec's end-to-end example: with the
two-point series (day 0, 10.0) and (day 10, 20.0), the price interpolated at
day 5 is exactly 15.0. -/
theorem C5_interior_formula_witness :
    interpolate_price [⟨0, 10⟩, ⟨10, 20⟩] 5 = some 15 := by
  have h := C5_interior_formula [⟨0, 10⟩, ⟨10, 20⟩] (by decide) ⟨0, 10⟩ ⟨10, 20⟩
    rfl rfl 5 (by decide) (by decide) ⟨0, 10⟩ ⟨10, 20⟩
    (List.mem_cons_self _ _) (by simp) (by decide) (by decide) (by decide) (by decide)
  rw [h]
  norm_num

/-- C10: every observed point of a (strictly date-sorted) series is a fixed
point of the interpolation: querying exactly an observed date returns exactly
that date's observed price. -/
theorem C10_observed_fixed_points (s : PriceSeries) (hs : SortedSeries s)
    (p : PricePoint) (hp : p ∈ s) : interpolate_price s p.date = some p.price := by
  cases hH : s.head? with
  | none =>
    rw [List.head?_eq_none_iff] at hH
    rw [hH] at hp
    simp at hp
  | some p0 =>
    cases hL : s.getLast? with
    | none =>
      rw [List.getLast?_eq_none_iff] at hL
      rw [hL] at hp
      simp at hp
    | some pn =>
      by_cases h1 : p.date ≤ p0.date
      · have h1' : p0.date ≤ p.date := head_date_le s p0 hs hH p hp
        have hpp : p = p0 :=
          date_inj s hs p hp p0 (List.mem_of_mem_head? (by simp [hH]))
            (le_antisymm h1 h1')
        rw [interpolate_price_before_start s p.date hs p0 hH h1, hpp]
      · by_cases h2 : pn.date ≤ p.date
        · have h2' : p.date ≤ pn.date := getLast_date_ge s pn hs hL p hp
          have hpp : p = pn :=
            date_inj s hs p hp pn (List.mem_of_getLast?_eq_some hL)
              (le_antisymm h2' h2)
          rw [interpolate_price_after_end s p.date hs pn hL h2, hpp]
        · have hlo : p0.date < p.date := not_le.mp h1
          have hhi : p.date < pn.date := not_le.mp h2
          obtain ⟨b, hbL, hbs, hbd, hbmax'⟩ :=
            filterLE_getLast_spec s p.date hs p hp (le_refl _)
          obtain ⟨a, haH, has, had, hamin'⟩ :=
            filterGT_head_spec s p.date hs pn (List.mem_of_getLast?_eq_some hL) hhi
          have hbp : b = p :=
            date_inj s hs b hbs p hp
              (le_antisymm hbd (hbmax' p hp (le_refl _)))
          rw [interpolate_price_interior s p.date hs p0 pn hH hL hlo hhi b a
            hbL haH hbd had, hbp]
          simp

/-- Witness for C10: querying the series exactly at its two observed dates
returns the observed prices. -/
theorem C10_observed_fixed_points_witness :
    interpolate_price [⟨0, 10⟩, ⟨10, 20⟩] 0 = some 10 ∧
    interpolate_price [⟨0, 10⟩, ⟨10, 20⟩] 10 = some 20 :=
  ⟨C10_observed_fixed_points [⟨0, 10⟩, ⟨10, 20⟩] (by decide) ⟨0, 10⟩
      (List.mem_cons_self _ _),
   C10_observed_fixed_points [⟨0, 10⟩, ⟨10, 20⟩] (by decide) ⟨10, 20⟩ (by simp)⟩

/-! The two proposal passes: closed-form characterizations. -/

/-- Acceptance condition of the injection proposal pass.  Because the source
never updates `current_inventory` inside this loop, the capacity check seen
by every iteration is `0 < cap` and the proposed volume is
`min rate (cap - 0)`. -/
def injAccepted (rate cap : ℚ) (wps : List (Int × ℚ)) (p : Int × ℚ) : Prop :=
  (wps.filter (fun w => decide (p.2 < w.2) && decide (p.1 < w.1))) ≠ [] ∧
    (0:ℚ) < cap ∧ 0 < min rate cap

instance (rate cap : ℚ) (wps : List (Int × ℚ)) (p : Int × ℚ) :
    Decidable (injAccepted rate cap wps p) := by
  unfold injAccepted
  infer_instance

lemma injectionPass_characterization (rate cap : ℚ) (wps : List (Int × ℚ)) :
    ∀ ips : List (Int × ℚ),
      injectionPass rate cap wps ips 0 =
        (ips.filter (fun p => decide (injAccepted rate cap wps p))).map
          (fun p => ⟨p.1, OpKind.inject, min rate cap, p.2⟩) := by
  intro ips
  induction ips with
  | nil => rfl
  | cons q rest ih =>
    obtain ⟨qd, qp⟩ := q
    by_cases h1 : (wps.filter fun w => decide (qp < w.2) && decide (qd < w.1)) ≠ [] ∧ (0:ℚ) < cap
    · by_cases h2 : (0:ℚ) < min rate (cap - 0)
      · have hacc : injAccepted rate cap wps (qd, qp) := by
          refine ⟨h1.1, h1.2, ?_⟩
          rw [← sub_zero cap]
          exact h2
        simp only [injectionPass, if_pos h1, if_pos h2, List.filter_cons,
          decide_eq_true_eq, hacc, if_pos, sub_zero, List.map_cons, ih]
        rw [if_pos hacc.2.2]
      · have hacc : ¬ injAccepted rate cap wps (qd, qp) := by
          intro h
          apply h2
          rw [sub_zero]
          exact h.2.2
        simp only [injectionPass, if_pos h1, if_neg h2, List.filter_cons,
          decide_eq_true_eq, List.map_cons, ih]
        simp [hacc]
    · have hacc : ¬ injAccepted rate cap wps (qd, qp) := by
        intro h
        exact h1 ⟨h.1, h.2.1⟩
      simp only [injectionPass, if_neg h1, ih]
      simp [hacc]

/-- C1 counterexample: injection dates at days 0 and 1 (both resolved price
1), one withdrawal date at day 10 with price 5, rate 50, capacity 80.  The
pass proposes volume 50 for BOTH injection dates, so the second proposal is
not `min(rate, capacity - counter)` for a counter that grew to 50 with the
first accepted proposal: that would be `min 50 (80 - 50) = 30 ≠ 50`.  The
cumulative proposed volume (100) also exceeds the capacity 80 that the claim
says the counter is kept below. -/
theorem C1_counterexample :
    (injectionPass 50 80 [(10, 5)] [(0, 1), (1, 1)] 0).map Proposal.volume = [50, 50] ∧
    ¬ ((50 : ℚ) = min 50 (80 - 50)) := by
  constructor
  · norm_num [injectionPass]
  · norm_num [min_def]

/-- C1 (amended): in the injection proposal pass the running
`current_inventory` counter is never updated — it stays 0 for the whole pass
— so every accepted proposal has volume `min(rate, capacity)` (the full
remaining capacity) and the capacity check degenerates to `0 < capacity`.  A
candidate injection date is accepted exactly when some candidate withdrawal
date strictly later in calendar time has a strictly greater resolved price,
the capacity is positive, and `min(rate, capacity)` is positive. -/
theorem C1_injection_pass_amended (rate cap : ℚ) (wps ips : List (Int × ℚ)) :
    injectionPass rate cap wps ips 0 =
      (ips.filter (fun p => decide (injAccepted rate cap wps p))).map
        (fun p => ⟨p.1, OpKind.inject, min rate cap, p.2⟩) :=
  injectionPass_characterization rate cap wps ips

lemma prior_filter_append (ops0 : List Proposal) (wd : Int) (x : Proposal)
    (hx : x.kind = OpKind.withdraw) :
    (ops0 ++ [x]).filter
        (fun op => decide (op.date < wd) && decide (op.kind = OpKind.inject)) =
      ops0.filter
        (fun op => decide (op.date < wd) && decide (op.kind = OpKind.inject)) := by
  rw [List.filter_append]
  simp [hx]

/-- The proposal made by the withdrawal pass for a single withdrawal
candidate `w`, as a function of the injection-kind entries of the operation
list `ops0` it started from: previously appended withdrawal proposals never
contribute. -/
def withdrawalProposal (rate : ℚ) (ops0 : List Proposal) (w : Int × ℚ) :
    Option Proposal :=
  let prior := ops0.filter
    (fun op => decide (op.date < w.1) && decide (op.kind = OpKind.inject))
  if prior ≠ [] ∧ 0 < (prior.map (·.volume)).sum then
    some ⟨w.1, OpKind.withdraw, min rate ((prior.map (·.volume)).sum), w.2⟩
  else none

lemma withdrawalPass_characterization (rate : ℚ) :
    ∀ (wps : List (Int × ℚ)) (ops0 : List Proposal),
      withdrawalPass rate wps ops0 =
        ops0 ++ wps.filterMap (withdrawalProposal rate ops0) := by
  intro wps
  induction wps with
  | nil => intro ops0; simp [withdrawalPass]
  | cons w rest ih =>
    intro ops0
    obtain ⟨wd, wp⟩ := w
    by_cases h1 : (ops0.filter
        (fun op => decide (op.date < wd) && decide (op.kind = OpKind.inject))) ≠ []
    · by_cases h2 : 0 < (((ops0.filter
          (fun op => decide (op.date < wd) && decide (op.kind = OpKind.inject))).map
            (·.volume)).sum)
      · have hstep : withdrawalPass rate ((wd, wp) :: rest) ops0 =
            withdrawalPass rate rest (ops0 ++
              [⟨wd, OpKind.withdraw,
                min rate (((ops0.filter (fun op => decide (op.date < wd) &&
                  decide (op.kind = OpKind.inject))).map (·.volume)).sum), wp⟩]) := by
          simp only [withdrawalPass, if_pos h1, if_pos h2]
        rw [hstep, ih]
        have hfm : rest.filterMap (withdrawalProposal rate (ops0 ++
            [⟨wd, OpKind.withdraw,
              min rate (((ops0.filter (fun op => decide (op.date < wd) &&
                decide (op.kind = OpKind.inject))).map (·.volume)).sum), wp⟩])) =
            rest.filterMap (withdrawalProposal rate ops0) := by
          apply List.filterMap_congr
          intro w' _
          unfold withdrawalProposal
          rw [prior_filter_append ops0 w'.1 _ rfl]
        rw [hfm, List.append_assoc]
        congr 1
        have hw : withdrawalProposal rate ops0 (wd, wp) =
            some ⟨wd, OpKind.withdraw,
              min rate (((ops0.filter (fun op => decide (op.date < wd) &&
                decide (op.kind = OpKind.inject))).map (·.volume)).sum), wp⟩ := by
          unfold withdrawalProposal
          rw [if_pos ⟨h1, h2⟩]
        rw [List.filterMap_cons, hw]
        rfl
      · have hstep : withdrawalPass rate ((wd, wp) :: rest) ops0 =
            withdrawalPass rate rest ops0 := by
          simp only [withdrawalPass, if_pos h1, if_neg h2]
        rw [hstep, ih]
        have hw : withdrawalProposal rate ops0 (wd, wp) = none := by
          unfold withdrawalProposal
          rw [if_neg]
          intro h
          exact h2 h.2
        rw [List.filterMap_cons, hw]
    · have hstep : withdrawalPass rate ((wd, wp) :: rest) ops0 =
          withdrawalPass rate rest ops0 := by
        simp only [withdrawalPass, if_neg h1]
      rw [hstep, ih]
      have hw : withdrawalProposal rate ops0 (wd, wp) = none := by
        unfold withdrawalProposal
        rw [if_neg]
        intro h
        exact h1 h.1
      rw [List.filterMap_cons, hw]

/-- C2: the withdrawal proposal pass appends, for each candidate withdrawal
date (taken in the given descending-price order), a withdrawal of volume
`min(rate, gross volume of all strictly earlier-dated injection proposals)`,
exactly when such prior injection proposals exist (their positive aggregate
volume being the second guard); each proposal is computed from the
injection-kind entries of the starting operation list only, so previously
appended withdrawal proposals are never subtracted from the available
figure. -/
theorem C2_withdrawal_pass (rate : ℚ) (wps : List (Int × ℚ)) (ops0 : List Proposal) :
    withdrawalPass rate wps ops0 =
      ops0 ++ wps.filterMap (withdrawalProposal rate ops0) :=
  withdrawalPass_characterization rate wps ops0

/-! Storage cost accrual. -/

lemma storageCostsFrom_eq_sum (rate : ℚ) :
    ∀ sched : List (Int × ℚ),
      storageCostsFrom rate sched =
        ((sched.zip sched.tail).map
          (fun pr => pr.1.2 * ((pr.2.1 - pr.1.1 : Int) : ℚ) * rate)).sum := by
  intro sched
  induction sched with
  | nil => rfl
  | cons x t ih =>
    cases t with
    | nil => rfl
    | cons y r =>
      obtain ⟨d1, inv1⟩ := x
      obtain ⟨d2, inv2⟩ := y
      simp only [storageCostsFrom, List.tail_cons, List.zip_cons_cons,
        List.map_cons, List.sum_cons] at ih ⊢
      rw [ih]
      ring

/-- C6: the total storage cost of a schedule is the sum over consecutive
pairs of samples of (leading sample's inventory level) × (whole days between
the two sample dates) × (storage cost rate): the leading level is used for
the whole interval as a step function, never an average. -/
theorem C6_storage_cost_step_function (self : GasStoragePricer)
    (sched : List (Int × ℚ)) :
    self.calculate_storage_costs sched =
      ((sched.zip sched.tail).map
        (fun pr => pr.1.2 * ((pr.2.1 - pr.1.1 : Int) : ℚ) *
          self.storage_cost_per_unit_per_day)).sum :=
  storageCostsFrom_eq_sum self.storage_cost_per_unit_per_day sched

/-- C7 counterexample: a schedule whose samples are out of chronological
order (dates 10 then 0) with all inventory levels ≥ 0 and cost rate 1 ≥ 0
yields total storage cost 5 * 1 * (0 - 10) = -50 < 0, because the day count
of the interval is negative.  So nonnegative levels and a nonnegative rate
alone do not make the returned cost nonnegative. -/
theorem C7_counterexample :
    GasStoragePricer.calculate_storage_costs ⟨[], 1⟩ [(10, 5), (0, 0)] = -50 := by
  norm_num [GasStoragePricer.calculate_storage_costs, storageCostsFrom]

lemma storageCostsFrom_nonneg (rate : ℚ) (hrate : 0 ≤ rate) :
    ∀ sched : List (Int × ℚ), (∀ x ∈ sched, 0 ≤ x.2) →
      sched.Chain' (fun a b => a.1 ≤ b.1) → 0 ≤ storageCostsFrom rate sched := by
  intro sched
  induction sched with
  | nil =>
    intro _ _
    exact le_refl _
  | cons x t ih =>
    cases t with
    | nil =>
      intro _ _
      exact le_refl _
    | cons y r =>
      intro hlev hch
      obtain ⟨d1, inv1⟩ := x
      obtain ⟨d2, inv2⟩ := y
      have h1 : (0:ℚ) ≤ inv1 := hlev (d1, inv1) (by simp)
      have hd : d1 ≤ d2 := (List.chain'_cons.mp hch).1
      have hterm : (0:ℚ) ≤ inv1 * rate * ((d2 - d1 : Int) : ℚ) := by
        apply mul_nonneg (mul_nonneg h1 hrate)
        have h2 : (0:Int) ≤ d2 - d1 := by omega
        exact_mod_cast h2
      have hrest := ih (fun z hz => hlev z (List.mem_cons_of_mem _ hz))
        (List.chain'_cons.mp hch).2
      simpa [storageCostsFrom] using add_nonneg hterm hrest

/-- C7 (amended): for every inventory schedule whose sample dates are in
chronological (non-decreasing) order — the order the schedule data model
prescribes and the engine produces for in-window candidate dates — with all
inventory levels ≥ 0 and a storage cost rate ≥ 0, the returned total storage
cost is ≥ 0. -/
theorem C7_nonneg_amended (self : GasStoragePricer) (sched : List (Int × ℚ))
    (hrate : 0 ≤ self.storage_cost_per_unit_per_day)
    (hlev : ∀ x ∈ sched, 0 ≤ x.2)
    (hchron : sched.Chain' (fun a b => a.1 ≤ b.1)) :
    0 ≤ self.calculate_storage_costs sched :=
  storageCostsFrom_nonneg self.storage_cost_per_unit_per_day hrate sched hlev hchron

/-- Witness for the amended C7 on a concrete chronological schedule. -/
theorem C7_nonneg_amended_witness :
    0 ≤ GasStoragePricer.calculate_storage_costs ⟨[], 1⟩ [(0, 2), (3, 0)] :=
  C7_nonneg_amended ⟨[], 1⟩ [(0, 2), (3, 0)] (by norm_num)
    (by intro x hx; rcases List.mem_cons.mp hx with h | h
        · rw [h]; norm_num
        · rcases List.mem_cons.mp h with h2 | h2
          · rw [h2]
          · simp at h2)
    (by norm_num [List.chain'_cons])

/-! The `price_contract` wrapper: state mutation and (missing) input
validation. -/

/-- C9: calling `price_contract` with a storage-cost override mutates the
pricer's shared `storage_cost_per_unit_per_day` field in place, leaves the
price series (and everything else) unchanged, and makes every subsequent call
that omits the override behave exactly as if the most recently overridden
rate had been passed — the constructor's rate is gone. -/
theorem C9_override_mutates_shared_rate (self : GasStoragePricer) (c : ℚ)
    (ids wds ids2 wds2 : List Int) (r v r2 v2 : ℚ) (cs ce cs2 ce2 : Int) :
    (self.price_contract ids wds r v cs ce (some c)).1.storage_cost_per_unit_per_day
        = c ∧
    (self.price_contract ids wds r v cs ce (some c)).1.price_data = self.price_data ∧
    ((self.price_contract ids wds r v cs ce (some c)).1.price_contract
        ids2 wds2 r2 v2 cs2 ce2 none).2 =
      (self.price_contract ids2 wds2 r2 v2 cs2 ce2 (some c)).2 :=
  ⟨rfl, rfl, rfl⟩

/-- C3 (code bug): `price_contract` / `optimize_storage_strategy` perform no
input validation at all.  Calls with a negative rate, a negative maximum
storage volume, or a contract end before the contract start all return a
normal valuation result (`isSome`) instead of rejecting with a descriptive
InvalidInput error as the spec requires. -/
theorem C3_no_input_validation :
    ((GasStoragePricer.price_contract ⟨[⟨0, 10⟩], 1/100⟩ [] [] (-1) 100 0 10
        none).2).isSome = true ∧
    ((GasStoragePricer.price_contract ⟨[⟨0, 10⟩], 1/100⟩ [] [] 50 (-5) 0 10
        none).2).isSome = true ∧
    ((GasStoragePricer.price_contract ⟨[⟨0, 10⟩], 1/100⟩ [] [] 50 100 10 0
        none).2).isSome = true := by
  refine ⟨?_, ?_, ?_⟩ <;>
    norm_num [GasStoragePricer.price_contract, GasStoragePricer.optimize_storage_strategy,
      resolvePrices, interpolate_price, executeOps, withdrawalPass, injectionPass,
      List.dedup, List.insertionSort, List.orderedInsert]

lemma injectionPass_mem_spec (rate cap : ℚ) (wps ips : List (Int × ℚ)) :
    ∀ p ∈ injectionPass rate cap wps ips 0,
      p.kind = OpKind.inject ∧ 0 < p.volume ∧ 0 < rate := by
  intro p hp
  rw [injectionPass_characterization] at hp
  obtain ⟨q, hq, rfl⟩ := List.mem_map.mp hp
  have hacc : injAccepted rate cap wps q := by
    have := (List.mem_filter.mp hq).2
    simpa using this
  have hmin : 0 < min rate cap := hacc.2.2
  exact ⟨rfl, hmin, (lt_min_iff.mp hmin).1⟩

lemma allOperations_mem_pos (rate cap : ℚ) (wps wps2 ips : List (Int × ℚ)) :
    ∀ p ∈ withdrawalPass rate wps2 (injectionPass rate cap wps ips 0),
      0 < p.volume := by
  intro p hp
  rw [withdrawalPass_characterization] at hp
  rcases List.mem_append.mp hp with h | h
  · exact (injectionPass_mem_spec rate cap wps ips p h).2.1
  · obtain ⟨w, hw, hsome⟩ := List.mem_filterMap.mp h
    unfold withdrawalProposal at hsome
    set prior := (injectionPass rate cap wps ips 0).filter
      (fun op => decide (op.date < w.1) && decide (op.kind = OpKind.inject)) with hprior
    by_cases hc : prior ≠ [] ∧ 0 < (prior.map (·.volume)).sum
    · rw [if_pos hc] at hsome
      obtain ⟨op0, hop0⟩ := List.exists_mem_of_ne_nil prior hc.1
      have hop0' : op0 ∈ injectionPass rate cap wps ips 0 :=
        (List.mem_filter.mp hop0).1
      have hrate : 0 < rate :=
        (injectionPass_mem_spec rate cap wps ips op0 hop0').2.2
      have hvol : 0 < min rate ((prior.map (·.volume)).sum) :=
        lt_min_iff.mpr ⟨hrate, hc.2⟩
      cases hsome
      exact hvol
    · rw [if_neg hc] at hsome
      simp at hsome



lemma executeOps_invariant (cap : ℚ) :
    ∀ (ops : List Proposal) (st : ExecState),
      (∀ p ∈ ops, 0 < p.volume) →
      0 ≤ st.current_inventory → st.current_inventory ≤ cap →
      (∀ x ∈ st.inventory_schedule, 0 ≤ x.2 ∧ x.2 ≤ cap) →
      (∀ x ∈ (executeOps cap ops st).inventory_schedule, 0 ≤ x.2 ∧ x.2 ≤ cap) ∧
      0 ≤ (executeOps cap ops st).current_inventory ∧
      (executeOps cap ops st).current_inventory ≤ cap := by
  intro ops
  induction ops with
  | nil =>
    intro st _ h1 h2 h3
    exact ⟨h3, h1, h2⟩
  | cons p rest ih =>
    intro st hvol h1 h2 h3
    have hvolp : 0 < p.volume := hvol p (List.mem_cons_self _ _)
    have hrest : ∀ q ∈ rest, 0 < q.volume := fun q hq => hvol q (List.mem_cons_of_mem _ hq)
    cases hk : p.kind with
    | inject =>
      by_cases hif : st.current_inventory + p.volume ≤ cap
      · simp only [executeOps, hk, if_pos hif]
        refine ih _ hrest ?_ ?_ ?_
        · simpa using add_nonneg h1 (le_of_lt hvolp)
        · simpa using hif
        · intro x hx
          simp only at hx
          rcases List.mem_append.mp hx with hx | hx
          · exact h3 x hx
          · have : x = (p.date, st.current_inventory + p.volume) := by simpa using hx
            rw [this]
            exact ⟨add_nonneg h1 (le_of_lt hvolp), hif⟩
      · simp only [executeOps, hk, if_neg hif]
        refine ih _ hrest ?_ ?_ ?_
        · simpa using h1
        · simpa using h2
        · intro x hx
          simp only at hx
          rcases List.mem_append.mp hx with hx | hx
          · exact h3 x hx
          · have : x = (p.date, st.current_inventory) := by simpa using hx
            rw [this]
            exact ⟨h1, h2⟩
    | withdraw =>
      by_cases hif : p.volume ≤ st.current_inventory
      · simp only [executeOps, hk, if_pos hif]
        refine ih _ hrest ?_ ?_ ?_
        · simpa using sub_nonneg.mpr hif
        · simpa using le_trans (sub_le_self _ (le_of_lt hvolp)) h2
        · intro x hx
          simp only at hx
          rcases List.mem_append.mp hx with hx | hx
          · exact h3 x hx
          · have : x = (p.date, st.current_inventory - p.volume) := by simpa using hx
            rw [this]
            exact ⟨sub_nonneg.mpr hif, le_trans (sub_le_self _ (le_of_lt hvolp)) h2⟩
      · simp only [executeOps, hk, if_neg hif]
        refine ih _ hrest ?_ ?_ ?_
        · simpa using h1
        · simpa using h2
        · intro x hx
          simp only at hx
          rcases List.mem_append.mp hx with hx | hx
          · exact h3 x hx
          · have : x = (p.date, st.current_inventory) := by simpa using hx
            rw [this]
            exact ⟨h1, h2⟩
    | liquidate =>
      simp only [executeOps, hk]
      refine ih _ hrest ?_ ?_ ?_
      · simpa using h1
      · simpa using h2
      · intro x hx
        simp only at hx
        rcases List.mem_append.mp hx with hx | hx
        · exact h3 x hx
        · have : x = (p.date, st.current_inventory) := by simpa using hx
          rw [this]
          exact ⟨h1, h2⟩



/-- C4: at every sample of the inventory schedule produced by a valuation
call, the inventory level is at least 0 and at most `max_storage_volume`
(which the data model requires to be positive; `0 ≤ cap` suffices): the
execution pass applies an injection only when
`current_inventory + volume ≤ capacity` and a withdrawal only when
`current_inventory ≥ volume`, skipping otherwise, every proposed volume is
positive, and the synthetic start/end samples carry inventory 0. -/
theorem C4_inventory_bounds (self : GasStoragePricer) (ids wds : List Int)
    (rate cap : ℚ) (cs ce : Int) (res : ValuationResult)
    (hres : self.optimize_storage_strategy ids wds rate cap cs ce = some res)
    (hcap : 0 ≤ cap) :
    ∀ x ∈ res.inventory_schedule, 0 ≤ x.2 ∧ x.2 ≤ cap := by
  unfold GasStoragePricer.optimize_storage_strategy at hres
  dsimp only [] at hres
  split at hres
  case _ price_map ips0 wps0 end_price hpm hips hwps hend =>
    obtain rfl := (Option.some.injEq _ _).mp hres
    intro x hx
    simp only at hx
    set wps := wps0.insertionSort (fun a b => b.2 ≤ a.2) with hwps2
    set ips := ips0.insertionSort (fun a b => a.2 ≤ b.2) with hips2
    set allOps := withdrawalPass rate wps (injectionPass rate cap wps ips 0) with hallOps
    set sortedOps := allOps.insertionSort (fun a b => a.date ≤ b.date) with hsorted
    have hvol : ∀ p ∈ sortedOps, 0 < p.volume := by
      intro p hp
      have hp' : p ∈ allOps := (List.perm_insertionSort _ _).mem_iff.mp hp
      exact allOperations_mem_pos rate cap wps wps ips p hp'
    have hinv := executeOps_invariant cap sortedOps ⟨[], [(cs, 0)], 0, 0⟩ hvol
      (le_refl _) hcap
      (by intro y hy
          have : y = ((cs : Int), (0 : ℚ)) := by simpa using hy
          rw [this]
          exact ⟨le_refl _, hcap⟩)
    rcases List.mem_append.mp hx with hx | hx
    · exact hinv.1 x hx
    · have : x = ((ce : Int), (0 : ℚ)) := by simpa using hx
      rw [this]
      exact ⟨le_refl _, hcap⟩
  case _ =>
    simp at hres



/-- Witness for C4: a concrete one-point-series valuation whose schedule
contains the sample (day 0, inventory 0), which is within [0, 100]. -/
theorem C4_inventory_bounds_witness :
    (0:ℚ) ≤ (((0:Int), (0:ℚ))).2 ∧ (((0:Int), (0:ℚ))).2 ≤ 100 :=
  C4_inventory_bounds ⟨[⟨0, 10⟩], 1/100⟩ [] [] 1 100 0 10
    ⟨[], [(0, 0), (10, 0)], 0, 0, 0, [(0, 10), (10, 10)]⟩
    (by norm_num [GasStoragePricer.optimize_storage_strategy, resolvePrices,
      interpolate_price, executeOps, withdrawalPass, injectionPass,
      GasStoragePricer.calculate_storage_costs, storageCostsFrom, List.dedup,
      List.insertionSort, List.orderedInsert])
    (by norm_num) ((0:Int), (0:ℚ)) (by simp)

end GasStorage
